import Mathlib

/-!
Verification development for the `ctree` program (`src/ctree.js`): a
terminal Christmas-tree renderer.  The program merges caller options over
defaults (validating that every leaf is a string), substitutes placeholder
tokens in a fixed text template, replaces digit runs ("lights") with a
randomly coloured ball glyph, and wraps marker-prefixed glyphs in fixed
ANSI colours.

The embedding below translates each JavaScript function into a Lean
definition over `List Char` / `String`, with JavaScript's dynamic values
modelled by the inductive type `JSValue` and the nondeterministic
`Math.random()` modelled by an explicit stream `draws : Nat → ℚ` of numbers
in `[0, 1)`, one per call.
-/

namespace Ctree

/-! ## JavaScript values and option merging -/

/-- Model of the JavaScript values a caller can place in the options
object: strings, numbers, booleans, `null`, arrays and plain objects
(association lists in insertion order, keys distinct as in JS). -/
inductive JSValue where
  | str (s : String)
  | num (q : ℚ)
  | bool (b : Bool)
  | null
  | arr (elems : List JSValue)
  | obj (entries : List (String × JSValue))

/-- JavaScript `typeof`.  Note `typeof null === "object"` and
`typeof [] === "object"`. -/
def jsTypeof : JSValue → String
  | .str _ => "string"
  | .num _ => "number"
  | .bool _ => "boolean"
  | .null => "object"
  | .arr _ => "object"
  | .obj _ => "object"

/-- JavaScript `Array.isArray`. -/
def isJsArray : JSValue → Bool
  | .arr _ => true
  | _ => false

/-- The keys enumerated by `for (const subKey in value)`: an object's own
keys; nothing for `null` (for-in over `null` iterates nothing). -/
def forInEntries : JSValue → List (String × JSValue)
  | .obj l => l
  | _ => []

/-- The `defaultOptions` object of `mergeOptions` (ctree.js lines 31-41). -/
def defaultOptions : List (String × JSValue) :=
  [("star", .obj [("TOP", .str "|"), ("TREE_STAR", .str "+"),
                  ("LEFT", .str "-"), ("RIGHT", .str "-"),
                  ("BOTTOM", .str "A")]),
   ("balls", .str "O"),
   ("stars", .str "*")]

/-- JavaScript object spread `{...a, ...b}`: `a`'s keys in order with
values overridden by `b` where present, then `b`'s keys not in `a`,
in order. -/
def spreadMerge (a b : List (String × JSValue)) : List (String × JSValue) :=
  (a.map fun p => (p.1, ((List.lookup p.1 b).getD p.2))) ++
    b.filter fun p => (List.lookup p.1 a).isNone

/-- The validation error thrown by `mergeOptions`
(`Invalid value for <path>: expected a string but got <got>`). -/
structure MergeError where
  path : List String
  got : String
deriving DecidableEq

/-- Validation of one `for (const key in mergedOptions)` step
(`typeof value === "object" && !Array.isArray(value)` selects the
sub-value check, which `null` passes vacuously; every other value must
itself be a string). -/
def validateEntry (key : String) (v : JSValue) : Except MergeError Unit :=
  if jsTypeof v == "object" && !isJsArray v then
    match (forInEntries v).find? (fun q => jsTypeof q.2 != "string") with
    | some q => .error ⟨[key, q.1], jsTypeof q.2⟩
    | none => .ok ()
  else if jsTypeof v != "string" then
    .error ⟨[key], jsTypeof v⟩
  else
    .ok ()

/-- The validation loop of `mergeOptions`: first offending entry wins. -/
def validateAll : List (String × JSValue) → Except MergeError Unit
  | [] => .ok ()
  | (k, v) :: rest =>
    match validateEntry k v with
    | .error e => .error e
    | .ok _ => validateAll rest

/-- Embedding of `mergeOptions` (ctree.js lines 30-67): spread-merge the
caller's options over the defaults, then validate every merged entry. -/
def mergeOptions (newOptions : List (String × JSValue)) :
    Except MergeError (List (String × JSValue)) :=
  let merged := spreadMerge defaultOptions newOptions
  match validateAll merged with
  | .error e => .error e
  | .ok _ => .ok merged

/-! ## Colors -/

/-- The `Color` class: an RGB triple. -/
structure Color where
  r : Nat
  g : Nat
  b : Nat
deriving DecidableEq

/-- `Color.toAnsi`: the 24-bit foreground escape sequence. -/
def Color.toAnsi (c : Color) : String :=
  "\x1b[38;2;" ++ toString c.r ++ ";" ++ toString c.g ++ ";" ++
    toString c.b ++ "m"

/-- `Color.reset`. -/
def Color.reset : String := "\x1b[0m"

/-- `Color.format`: the character(s) wrapped in the colour's escape
sequence and the reset sequence. -/
def Color.format (c : Color) (s : String) : String :=
  c.toAnsi ++ s ++ Color.reset

def yellow : Color := ⟨255, 255, 0⟩
def green : Color := ⟨0, 255, 0⟩
def brown : Color := ⟨210, 105, 30⟩

/-! ## The template -/

/-- The template literal `input` (ctree.js lines 158-176), transcribed
character for character (`\x27` is the apostrophe). -/
def inputTemplate : String :=
  "\n" ++
  "         yTOP\n" ++
  "        yLEFTyANGELyRIGHT\n" ++
  "         yA\n" ++
  "        g/g=g\\               /\\  /\\    ___  _ __  _ __ __    __\n" ++
  "      10g/ ySTAR g\\20            /  \\/  \\  / _ \\| \x27__|| \x27__|\\ \\  / /\n" ++
  "      g/g=g=g=g=g=g\\           / /\\  /\\ \\|  __/| |   | |    \\ \\/ /\n" ++
  "      g/  3BALL  g\\          \\_\\ \\/ /_/ \\___/|_|   |_|     \\  /\n" ++
  "    40g/ 50 ySTAR 60 g\\70                                       / /\n" ++
  "    g/g=g=g=g=g=g=g=g=g=g\\        __  __                        /_/    _\n" ++
  "    g/  ySTAR   ySTAR  g\\        \\ \\/ /        /\\  /\\    ____  ____  | |\n" ++
  "  80g/ ySTAR   90   ySTAR g\\100       \\  /   __   /  \\/  \\  / _  |/ ___\\ |_|\n" ++
  "  g/g=g=g=g=g=g=g=g=g=g=g=g=g=g\\       /  \\  |__| / /\\  /\\ \\| (_| |\\___ \\  _\n" ++
  "  g/  140   ySTAR   150  g\\      /_/\\_\\      \\_\\ \\/ /_/ \\__,_|\\____/ |_|\n" ++
  "160g/ ySTAR   170   180   ySTAR g\\190\n" ++
  "g/g=g=g=g=g=g=g=g=g=g=g=g=g=g=g=g=g=g\\\n" ++
  "       b|   b|\n" ++
  "       b|b_b_b_b|\n"

/-! ## Global literal replacement (`str.split(pat).join(rep)`) -/

/-- Strip `pat` from the front of `s`; `none` when `pat` is not a
prefix. -/
def dropPrefixL : List Char → List Char → Option (List Char)
  | [], s => some s
  | _ :: _, [] => none
  | p :: ps, c :: cs => if c = p then dropPrefixL ps cs else none

/-- Fuel-indexed core of `s.split(pat).join(rep)` for nonempty `pat`:
scan left to right, replacing each non-overlapping occurrence of `pat`
with `rep`.  Fuel at least `s.length` suffices. -/
def replaceAllF (pat rep : List Char) : Nat → List Char → List Char
  | 0, s => s
  | _ + 1, [] => []
  | fuel + 1, c :: cs =>
    match dropPrefixL pat (c :: cs) with
    | some rest => rep ++ replaceAllF pat rep fuel rest
    | none => c :: replaceAllF pat rep fuel cs

/-- Length with a strict accumulator (equal to `List.length`, proved in
`lenAcc_eq`); matching on the accumulator keeps it a literal so that long
lists reduce iteratively inside the kernel. -/
def lenAcc : List Char → Nat → Nat
  | [], n => n
  | _ :: cs, 0 => lenAcc cs 1
  | _ :: cs, n + 1 => lenAcc cs (n + 2)

/-- JavaScript `s.split(pat).join(rep)`.  For empty `pat`, `split("")`
yields the individual characters, so `join` interleaves `rep` between
them. -/
def replaceAllL (s pat rep : List Char) : List Char :=
  match pat with
  | [] => (s.map fun c => [c]).intersperse rep |>.flatten
  | p :: ps => replaceAllF (p :: ps) rep (lenAcc s 0) s

/-- Embedding of `modifyTemplate` (ctree.js lines 187-193): sequential
global literal replacement, one `Object.entries` pair at a time. -/
def modifyTemplate (s : List Char) (replacements : List (String × String)) :
    List Char :=
  replacements.foldl (fun acc kv => replaceAllL acc kv.1.data kv.2.data) s

/-! ## Random colour generation -/

/-- Embedding of `getRandomInt` (ctree.js lines 205-207):
`Math.floor(Math.random() * max)` with `Math.random()` modelled as a
rational `rand ∈ [0, 1)`.  For `rand = n/d` in lowest terms,
`⌊(n/d) * max⌋ = (n * max) / d` in floor division; this explicit form
keeps the definition kernel-computable (`getRandomInt_eq_floor` below
proves it equal to the mathematical `⌊rand * max⌋`). -/
def getRandomInt (rand : ℚ) (max : Nat) : ℤ :=
  (rand.num * max) / (rand.den : ℤ)

/-- The switch of `generateColor` (ctree.js lines 219-240): the six-colour
palette with the defensive white default. -/
def selectColor (selection : ℤ) : Color :=
  if selection = 0 then ⟨247, 108, 246⟩      -- Pink
  else if selection = 1 then ⟨85, 202, 255⟩  -- Light Blue
  else if selection = 2 then ⟨100, 0, 255⟩   -- Purple
  else if selection = 3 then ⟨236, 21, 0⟩    -- Red
  else if selection = 4 then ⟨243, 213, 0⟩   -- Orange
  else if selection = 5 then ⟨100, 255, 24⟩  -- Light Green
  else ⟨255, 255, 255⟩                        -- Fallback to white

/-- Embedding of `generateColor` (ctree.js lines 215-243): one random draw
selects a palette colour, which formats the input. -/
def generateColor (rand : ℚ) (input : String) : String :=
  (selectColor (getRandomInt rand 6)).format input

/-! ## The light pass (`applyColorsToLights`) -/

/-- Split off the maximal leading digit run. -/
def takeDigits : List Char → List Char × List Char
  | [] => ([], [])
  | c :: cs =>
    if c.isDigit then
      let p := takeDigits cs
      (c :: p.1, p.2)
    else ([], c :: cs)

/-- Consume the optional (`?`-suffixed) final character of the glyph from
the front of the remaining text when present. -/
def dropGlyphOpt (glyph : List Char) : List Char → List Char
  | [] => []
  | d :: ds => if glyph.getLast? = some d then ds else d :: ds

/-- Fuel-indexed embedding of
`input.replace(new RegExp("(\\d+)" + balls + "?", "g"), m => generateColor(balls))`
(ctree.js lines 251-254) for a `balls` string that the regex engine treats
literally (nonempty, no regex metacharacters): at each digit, the greedy
`\d+` takes the maximal digit run; the interpolated glyph contributes its
leading characters as required literals and its final character as the
optional (`?`) literal; on a match one fresh draw (`draws k`, `k` counting
matches) colours one instance of the glyph; digit runs not followed by the
glyph's required prefix are left in place (no match).  `balls` values that
are empty or contain metacharacters change (or break) the regex itself and
are outside this embedding; see the C6 analysis. -/
def lightScanF (glyph : List Char) (draws : Nat → ℚ) :
    Nat → Nat → List Char → List Char
  | 0, _, s => s
  | _ + 1, _, [] => []
  | fuel + 1, k, c :: cs =>
    if c.isDigit then
      let p := takeDigits (c :: cs)
      match dropPrefixL glyph.dropLast p.2 with
      | some rest1 =>
        (generateColor (draws k) (String.mk glyph)).data ++
          lightScanF glyph draws fuel (k + 1) (dropGlyphOpt glyph rest1)
      | none => p.1 ++ lightScanF glyph draws fuel k p.2
    else c :: lightScanF glyph draws fuel k cs

/-- Number of regex matches of the light pass on `s` (the digit-run
positions that get coloured).  Same scan as `lightScanF`, counting
matches instead of building the output. -/
def countLightsF (glyph : List Char) : Nat → List Char → Nat
  | 0, _ => 0
  | _ + 1, [] => 0
  | fuel + 1, c :: cs =>
    if c.isDigit then
      let p := takeDigits (c :: cs)
      match dropPrefixL glyph.dropLast p.2 with
      | some rest1 => 1 + countLightsF glyph fuel (dropGlyphOpt glyph rest1)
      | none => countLightsF glyph fuel p.2
    else countLightsF glyph fuel cs

/-- Embedding of `applyColorsToLights`. -/
def applyColorsToLights (balls : String) (draws : Nat → ℚ) (s : List Char) :
    List Char :=
  lightScanF balls.data draws (lenAcc s 0) 0 s

/-- The number of light matches `applyColorsToLights` colours on `s`. -/
def countLights (balls : String) (s : List Char) : Nat :=
  countLightsF balls.data (lenAcc s 0) s

/-! ## The category passes (`applyColors` / `applyColorToChars`) -/

/-- The merged configuration in the shape the pipeline reads it
(`options.star` a string-valued object, `options.balls` and
`options.stars` strings): the shape produced by the defaults and by every
validated caller object whose `star` is an object. -/
structure Resolved where
  star : List (String × String)
  balls : String
  stars : String

/-- Embedding of `applyColorToChars` (ctree.js lines 149-156): for each
listed string, globally replace `charPrefix ++ char` by the coloured
char. -/
def applyColorToChars (s : List Char) (color : Color) (charPrefix : String)
    (chars : List String) : List Char :=
  chars.foldl
    (fun acc ch => replaceAllL acc (charPrefix.data ++ ch.data)
      (color.format ch).data) s

/-- The list `[...Object.values(options.star), ...Object.values(options.stars)]`
fed to the yellow pass: the star values whole, then the `stars` string
decomposed into its individual characters (`Object.values` of a string
yields its characters). -/
def yellowChars (r : Resolved) : List String :=
  r.star.map Prod.snd ++ r.stars.data.map (fun c => String.mk [c])

/-- Embedding of `applyColors` (ctree.js lines 125-138): yellow pass on
the star values and `stars` characters, then green on `/ \ =`, then brown
on `| _`. -/
def applyColors (r : Resolved) (base : List Char) : List Char :=
  let a1 := applyColorToChars base yellow "y" (yellowChars r)
  let a2 := applyColorToChars a1 green "g" ["/", "\\", "="]
  let a3 := applyColorToChars a2 brown "b" ["|", "_"]
  a3

/-! ## The pipeline -/

/-- The template after the two `modifyTemplate` calls (ctree.js lines
195-197): first the `star` entries, then `{BALL: balls, STAR: stars}`. -/
def postSubst (r : Resolved) : List Char :=
  modifyTemplate
    (modifyTemplate inputTemplate.data r.star)
    [("BALL", r.balls), ("STAR", r.stars)]

/-- The whole post-merge pipeline (ctree.js line 256):
`applyColors(applyColorsToLights(input))` after both substitutions. -/
def ctreePipeline (r : Resolved) (draws : Nat → ℚ) : List Char :=
  applyColors r (applyColorsToLights r.balls draws (postSubst r))

/-- Read a merged options object into `Resolved` when it has the shape the
pipeline expects (`star` an object of strings, `balls`/`stars` strings). -/
def resolveMerged (m : List (String × JSValue)) : Option Resolved :=
  match List.lookup "star" m, List.lookup "balls" m, List.lookup "stars" m with
  | some (.obj l), some (.str b), some (.str st) =>
    let strOf : JSValue → Option String := fun v =>
      match v with
      | .str s => some s
      | _ => none
    match l.mapM (fun p => (strOf p.2).map (fun s => (p.1, s))) with
    | some l2 => some ⟨l2, b, st⟩
    | none => none
  | _, _, _ => none

/-- Embedding of a full `ctree(options)` invocation: merge (possibly
raising the validation error), then run the pipeline.  `none` marks merged
shapes outside the `Resolved` fragment (e.g. a scalar `star`), which this
development does not model further. -/
def ctree (options : List (String × JSValue)) (draws : Nat → ℚ) :
    Except MergeError (Option (List Char)) :=
  match mergeOptions options with
  | .error e => .error e
  | .ok merged => .ok ((resolveMerged merged).map fun r => ctreePipeline r draws)

/-! ## Specification-side notions -/

/-- Reading of the specification's "resolved leaf value that is not a
string" for one top-level configuration value: a top-level scalar that is
not a string, or a sub-value of a nested mapping that is not a string. -/
def isNonStringLeafTop : JSValue → Bool
  | .str _ => false
  | .obj l => l.any fun q =>
      match q.2 with
      | .str _ => false
      | _ => true
  | _ => true

/-- Some resolved leaf of the merged configuration is not a string. -/
def hasNonStringLeafB (m : List (String × JSValue)) : Bool :=
  m.any fun p => isNonStringLeafTop p.2

/-- The validation error names an actual offending entry of the merged
configuration: its path points at a non-string leaf whose `typeof` is the
reported one. -/
def errorWitnessed (e : MergeError) (m : List (String × JSValue)) : Prop :=
  match e.path with
  | [k] => ∃ v, (k, v) ∈ m ∧ jsTypeof v = e.got ∧ e.got ≠ "string"
  | [k, sk] => ∃ l v, (k, JSValue.obj l) ∈ m ∧ (sk, v) ∈ l ∧
      jsTypeof v = e.got ∧ e.got ≠ "string"
  | _ => False

/-- The six-colour palette of `generateColor`, in switch-case order. -/
def palette6 : List Color :=
  [⟨247, 108, 246⟩, ⟨85, 202, 255⟩, ⟨100, 0, 255⟩,
   ⟨236, 21, 0⟩, ⟨243, 213, 0⟩, ⟨100, 255, 24⟩]

/-- The default configuration in resolved form. -/
def defaultResolved : Resolved :=
  ⟨[("TOP", "|"), ("TREE_STAR", "+"), ("LEFT", "-"), ("RIGHT", "-"),
    ("BOTTOM", "A")], "O", "*"⟩

/-- Substring test on character lists (tail-recursive in reduction). -/
def isInfixL (pat : List Char) : List Char → Bool
  | [] => pat.isEmpty
  | c :: cs => pat.isPrefixOf (c :: cs) || isInfixL pat cs

/-! ## Further concrete configurations and draw streams -/

/-- A draw stream that always returns 0 (a legal `Math.random()` run). -/
def zeroDraws : Nat → ℚ := fun _ => 0

/-- The pattern string interpolated into `new RegExp` by
`applyColorsToLights` (ctree.js line 252): the `balls` option is spliced
into the regular-expression source text unescaped. -/
def lightRegexSource (balls : String) : String :=
  "(\\d+)" ++ balls ++ "?"

/-- A full caller `star` object that overrides `BOTTOM` with `Z`. -/
def bottomZResolved : Resolved :=
  ⟨[("TOP", "|"), ("TREE_STAR", "+"), ("LEFT", "-"), ("RIGHT", "-"),
    ("BOTTOM", "Z")], "O", "*"⟩

/-- The default configuration with `balls: "X"`. -/
def ballsXResolved : Resolved :=
  ⟨[("TOP", "|"), ("TREE_STAR", "+"), ("LEFT", "-"), ("RIGHT", "-"),
    ("BOTTOM", "A")], "X", "*"⟩

/-- An all-text configuration whose `star.TOP` is the escape character and
whose `star.LEFT` is the marker letter `y` itself: every leaf is a string,
so merging accepts it. -/
def escapeResolved : Resolved :=
  ⟨[("TOP", "\x1b"), ("TREE_STAR", "+"), ("LEFT", "y"), ("RIGHT", "-"),
    ("BOTTOM", "A")], "O", "*"⟩

/-- The default configuration with the two-character `stars: "ab"`. -/
def starsABResolved : Resolved :=
  ⟨[("TOP", "|"), ("TREE_STAR", "+"), ("LEFT", "-"), ("RIGHT", "-"),
    ("BOTTOM", "A")], "O", "ab"⟩

/-- The characters that can occur in an ANSI colour/reset escape sequence
produced by `Color.toAnsi`/`Color.reset` for numeric channels: the escape
character, the bracket, digits, the semicolon and `m`. -/
def ansiChars : List Char :=
  ('\x1b' :: "[0123456789;m".data)

/-- `safeB m S s` holds when every occurrence of the marker character `m`
in `s` has an immediate successor and that successor lies in `S`.  With
`S = []` this says `m` does not occur at all. -/
def safeB (m : Char) (S : List Char) : List Char → Bool
  | [] => true
  | [c] => c != m
  | c :: d :: cs => (if c = m then S.contains d else true) && safeB m S (d :: cs)

/-- Specification-side description of one light-colorisation pass (the
claim's wording): the text decomposes into maximal runs of digits, each
optionally followed immediately by the resolved ball glyph and replaced by
`repl k` — the ball glyph wrapped in the freshly chosen colour of the
`k`-th draw — while all other characters are copied unchanged.  The flag
is `true` exactly when the previous run matched without consuming the
optional glyph, in which case maximality and greediness demand that the
text cannot continue with a digit (encoded by allowing further runs only
under `false`) nor with the glyph itself. -/
inductive LightsSpec (glyph : List Char) (repl : Nat → List Char) :
    Bool → Nat → List Char → List Char → Prop
  | nil (ban : Bool) (k : Nat) : LightsSpec glyph repl ban k [] []
  | plain (ban : Bool) (k : Nat) (c : Char) (cs out : List Char)
      (hc : ¬ c.isDigit = true)
      (hban : ban = true → ¬ glyph.isPrefixOf (c :: cs) = true)
      (hrec : LightsSpec glyph repl false k cs out) :
      LightsSpec glyph repl ban k (c :: cs) (c :: out)
  | runGlyph (k : Nat) (run rest out : List Char)
      (hne : run ≠ [])
      (hdig : ∀ c ∈ run, c.isDigit = true)
      (hrec : LightsSpec glyph repl false (k + 1) rest out) :
      LightsSpec glyph repl false k (run ++ glyph ++ rest) (repl k ++ out)
  | runNoGlyph (k : Nat) (run rest out : List Char)
      (hne : run ≠ [])
      (hdig : ∀ c ∈ run, c.isDigit = true)
      (hrec : LightsSpec glyph repl true (k + 1) rest out) :
      LightsSpec glyph repl false k (run ++ rest) (repl k ++ out)

/-- The replacement text the light pass inserts for the `k`-th match under
the draw stream `draws`: the glyph wrapped in the freshly drawn colour. -/
def lightRepl (glyph : List Char) (draws : Nat → ℚ) (k : Nat) : List Char :=
  (generateColor (draws k) (String.mk glyph)).data

/-- The evolution of a marker's admissible-successor set through one
category pass: each single-character glyph processed removes itself from
the set (its marker-prefixed occurrences are all consumed). -/
def filterChain (S : List Char) : List String → List Char
  | [] => S
  | ch :: rest =>
    match ch.data with
    | [v] => filterChain (S.filter (fun x => x != v)) rest
    | _ => filterChain S rest

/-! ## Option-merging lemmas -/

theorem lookup_append_or (l1 l2 : List (String × JSValue)) (k : String) :
    List.lookup k (l1 ++ l2) = (List.lookup k l1).or (List.lookup k l2) := by
  induction l1 with
  | nil => simp
  | cons p rest ih =>
    rcases p with ⟨k1, v1⟩
    by_cases hk : k = k1
    · subst hk
      simp [List.lookup_cons]
    · have hbeq : (k == k1) = false := by simpa using hk
      simp [List.lookup_cons, hbeq, ih]

theorem lookup_map_override (a b : List (String × JSValue)) (k : String) :
    List.lookup k (a.map fun p => (p.1, (List.lookup p.1 b).getD p.2)) =
      (List.lookup k a).map fun v => (List.lookup k b).getD v := by
  induction a with
  | nil => simp
  | cons p rest ih =>
    rcases p with ⟨k1, v1⟩
    by_cases hk : k = k1
    · subst hk
      simp [List.lookup_cons]
    · have hbeq : (k == k1) = false := by simpa using hk
      simp [List.lookup_cons, hbeq, ih]

theorem lookup_filter_keep (b a : List (String × JSValue)) (k : String)
    (hk : List.lookup k a = none) :
    List.lookup k (b.filter fun p => (List.lookup p.1 a).isNone) =
      List.lookup k b := by
  induction b with
  | nil => simp
  | cons p rest ih =>
    rcases p with ⟨k1, v1⟩
    by_cases hkk : k = k1
    · subst hkk
      simp [List.filter_cons, hk, List.lookup_cons]
    · have hbeq : (k == k1) = false := by simpa using hkk
      rcases h1 : (List.lookup k1 a).isNone with _ | _
      · simp [List.filter_cons, h1, List.lookup_cons, hbeq, ih]
      · simp [List.filter_cons, h1, List.lookup_cons, hbeq, ih]

theorem lookup_spreadMerge (a b : List (String × JSValue)) (k : String) :
    List.lookup k (spreadMerge a b) =
      match List.lookup k a with
      | some v => some ((List.lookup k b).getD v)
      | none => List.lookup k b := by
  rw [spreadMerge, lookup_append_or, lookup_map_override]
  rcases hka : List.lookup k a with _ | v
  · simp [lookup_filter_keep b a k hka]
  · rcases hkb : List.lookup k b with _ | w <;> simp

theorem validateEntry_str (k : String) (s : String) :
    validateEntry k (.str s) = .ok () := rfl

theorem validateEntry_num (k : String) (q : ℚ) :
    validateEntry k (.num q) = .error ⟨[k], "number"⟩ := rfl

theorem validateEntry_bool (k : String) (b : Bool) :
    validateEntry k (.bool b) = .error ⟨[k], "boolean"⟩ := rfl

theorem validateEntry_null (k : String) :
    validateEntry k .null = .ok () := rfl

theorem validateEntry_arr (k : String) (l : List JSValue) :
    validateEntry k (.arr l) = .error ⟨[k], "object"⟩ := rfl

theorem validateEntry_obj (k : String) (l : List (String × JSValue)) :
    validateEntry k (.obj l) =
      match l.find? (fun q => jsTypeof q.2 != "string") with
      | some q => .error ⟨[k, q.1], jsTypeof q.2⟩
      | none => .ok () := rfl

theorem validateEntry_ok_iff (k : String) (v : JSValue) (h : v ≠ .null) :
    validateEntry k v = .ok () ↔ isNonStringLeafTop v = false := by
  cases v with
  | str s => simp [validateEntry_str, isNonStringLeafTop]
  | num q => simp [validateEntry_num, isNonStringLeafTop]
  | bool b => simp [validateEntry_bool, isNonStringLeafTop]
  | null => exact absurd rfl h
  | arr l => simp [validateEntry_arr, isNonStringLeafTop]
  | obj l =>
    rw [validateEntry_obj]
    simp only [isNonStringLeafTop]
    rcases hfind : l.find? (fun q => jsTypeof q.2 != "string") with _ | q
    · rw [hfind]
      have hall := List.find?_eq_none.mp hfind
      constructor
      · intro _
        rw [List.any_eq_false]
        intro q hq
        have := hall q hq
        cases hv : q.2 <;> simp_all [jsTypeof]
      · intro _
        rfl
    · rw [hfind]
      have hpred := List.find?_some hfind
      have hne : jsTypeof q.2 ≠ "string" := by simpa using hpred
      constructor
      · intro hcontra
        cases hcontra
      · intro hall
        rw [List.any_eq_false] at hall
        have := hall q (List.mem_of_find?_eq_some hfind)
        cases hv : q.2 <;> simp_all [jsTypeof]

theorem validateEntry_error_witnessed (k : String) (v : JSValue)
    (e : MergeError) (h : validateEntry k v = .error e) :
    errorWitnessed e [(k, v)] := by
  cases v with
  | str s => rw [validateEntry_str] at h; cases h
  | num q =>
    rw [validateEntry_num] at h
    cases h
    exact ⟨.num q, by simp, rfl, by simp⟩
  | bool b =>
    rw [validateEntry_bool] at h
    cases h
    exact ⟨.bool b, by simp, rfl, by simp⟩
  | null => rw [validateEntry_null] at h; cases h
  | arr l =>
    rw [validateEntry_arr] at h
    cases h
    exact ⟨.arr l, by simp, rfl, by simp⟩
  | obj l =>
    rw [validateEntry_obj] at h
    rcases hfind : l.find? (fun q => jsTypeof q.2 != "string") with _ | q
    · rw [hfind] at h
      exact absurd h (by simp)
    · rw [hfind] at h
      cases h
      have hpred := List.find?_some hfind
      have hne : jsTypeof q.2 ≠ "string" := by simpa using hpred
      exact ⟨l, q.2, by simp, by simpa using List.mem_of_find?_eq_some hfind,
        rfl, hne⟩

theorem validateAll_ok_iff (m : List (String × JSValue))
    (h : ∀ p ∈ m, p.2 ≠ .null) :
    validateAll m = .ok () ↔ hasNonStringLeafB m = false := by
  induction m with
  | nil => simp [validateAll, hasNonStringLeafB]
  | cons p rest ih =>
    rcases p with ⟨k, v⟩
    have hv : v ≠ .null := h (k, v) (by simp)
    have hrest : ∀ p ∈ rest, p.2 ≠ .null := fun p hp => h p (by simp [hp])
    rw [validateAll]
    simp only [hasNonStringLeafB, List.any_cons] at *
    rcases he : validateEntry k v with e2 | u
    · have hleaf : isNonStringLeafTop v = true := by
        by_contra hfalse
        rw [Bool.not_eq_true] at hfalse
        rw [← validateEntry_ok_iff k v hv] at hfalse
        rw [hfalse] at he
        cases he
      rw [hleaf]
      simp
    · have hleaf : isNonStringLeafTop v = false :=
        (validateEntry_ok_iff k v hv).mp (by cases u; exact he)
      rw [hleaf]
      simpa using ih hrest

theorem errorWitnessed_anyMem {e : MergeError} {m m2 : List (String × JSValue)}
    (hsub : ∀ p, p ∈ m → p ∈ m2) (h : errorWitnessed e m) :
    errorWitnessed e m2 := by
  rcases e with ⟨path, got⟩
  rcases path with _ | ⟨k, _ | ⟨sk, _ | ⟨x, tl⟩⟩⟩
  · exact (h : False).elim
  · obtain ⟨v, hv, h2, h3⟩ := h
    exact ⟨v, hsub _ hv, h2, h3⟩
  · obtain ⟨l, v, hl, hv, h2, h3⟩ := h
    exact ⟨l, v, hsub _ hl, hv, h2, h3⟩
  · exact (h : False).elim

theorem validateAll_error_witnessed (m : List (String × JSValue))
    (e : MergeError) (h : validateAll m = .error e) : errorWitnessed e m := by
  induction m with
  | nil => simp [validateAll] at h
  | cons p rest ih =>
    rcases p with ⟨k, v⟩
    rw [validateAll] at h
    rcases he : validateEntry k v with e2 | u
    · rw [he] at h
      cases h
      refine errorWitnessed_anyMem (fun q hq => ?_)
        (validateEntry_error_witnessed k v e he)
      simp only [List.mem_singleton] at hq
      simp [hq]
    · rw [he] at h
      exact errorWitnessed_anyMem (fun q hq => List.mem_cons_of_mem _ hq)
        (ih h)

theorem mergeOptions_eq (opts : List (String × JSValue)) :
    mergeOptions opts =
      match validateAll (spreadMerge defaultOptions opts) with
      | .ok _ => .ok (spreadMerge defaultOptions opts)
      | .error e => .error e := by
  unfold mergeOptions
  rcases h : validateAll (spreadMerge defaultOptions opts) with e2 | u <;>
    simp only [h]

/-! ## Random-draw lemmas -/

theorem getRandomInt_eq_floor (r : ℚ) (m : ℕ) :
    getRandomInt r m = ⌊(r * m : ℚ)⌋ := by
  have hden : ((r.den : ℚ)) ≠ 0 := Nat.cast_ne_zero.mpr r.den_nz
  have key : (r * m : ℚ) = ((r.num * (m : ℤ) : ℤ) : ℚ) / ((r.den : ℚ)) := by
    conv_lhs => rw [← Rat.num_div_den r]
    push_cast
    ring
  rw [key, Rat.floor_intCast_div_natCast]
  rfl

theorem getRandomInt_bounds (r : ℚ) (h0 : 0 ≤ r) (h1 : r < 1) :
    0 ≤ getRandomInt r 6 ∧ getRandomInt r 6 < 6 := by
  rw [getRandomInt_eq_floor]
  constructor
  · exact Int.le_floor.mpr (by positivity)
  · refine Int.floor_lt.mpr ?_
    push_cast
    nlinarith

theorem selectColor_mem_palette6 (sel : ℤ) (h0 : 0 ≤ sel) (h1 : sel < 6) :
    selectColor sel ∈ palette6 := by
  interval_cases sel <;> simp [selectColor, palette6]

/-! ## List-processing lemmas -/

theorem lenAcc_eq : ∀ (s : List Char) (n : Nat), lenAcc s n = n + s.length
  | [], n => by simp [lenAcc]
  | c :: cs, 0 => by
    rw [lenAcc, lenAcc_eq cs 1]
    simp [Nat.add_comm]
  | c :: cs, n + 1 => by
    rw [lenAcc, lenAcc_eq cs (n + 2)]
    simp only [List.length_cons]
    omega

theorem dropPrefixL_eq :
    ∀ (pre s rest : List Char), dropPrefixL pre s = some rest →
      s = pre ++ rest
  | [], s, rest, h => by
    simp only [dropPrefixL, Option.some.injEq] at h
    simp [h]
  | p :: ps, [], rest, h => by simp [dropPrefixL] at h
  | p :: ps, c :: cs, rest, h => by
    rw [dropPrefixL] at h
    by_cases hc : c = p
    · rw [if_pos hc] at h
      have := dropPrefixL_eq ps cs rest h
      simp [hc, this]
    · rw [if_neg hc] at h
      cases h

theorem dropPrefixL_none_of_head_ne {p d : Char} (ps ds : List Char)
    (h : d ≠ p) : dropPrefixL (p :: ps) (d :: ds) = none := by
  simp [dropPrefixL, h]

theorem replaceAllF_mem (pat rep : List Char) :
    ∀ (fuel : Nat) (s : List Char) (c : Char),
      c ∈ replaceAllF pat rep fuel s → c ∈ s ∨ c ∈ rep
  | 0, s, c, h => Or.inl h
  | fuel + 1, [], c, h => by cases h
  | fuel + 1, c0 :: cs, c, h => by
    rw [replaceAllF] at h
    rcases hdp : dropPrefixL pat (c0 :: cs) with _ | rest <;> rw [hdp] at h
    · rcases List.mem_cons.mp h with rfl | h2
      · exact Or.inl (List.mem_cons_self _ _)
      · rcases replaceAllF_mem pat rep fuel cs c h2 with h3 | h3
        · exact Or.inl (List.mem_cons_of_mem _ h3)
        · exact Or.inr h3
    · rcases List.mem_append.mp h with h2 | h2
      · exact Or.inr h2
      · rcases replaceAllF_mem pat rep fuel rest c h2 with h3 | h3
        · rw [dropPrefixL_eq pat (c0 :: cs) rest hdp]
          exact Or.inl (List.mem_append_right _ h3)
        · exact Or.inr h3

theorem replaceAllF_head (p0 : Char) (prest rep : List Char) (fuel : Nat)
    (d : Char) (ds : List Char) (hne : d ≠ p0) :
    ∃ t, replaceAllF (p0 :: prest) rep fuel (d :: ds) = d :: t := by
  cases fuel with
  | zero => exact ⟨ds, rfl⟩
  | succ fuel =>
    refine ⟨replaceAllF (p0 :: prest) rep fuel ds, ?_⟩
    rw [replaceAllF, dropPrefixL_none_of_head_ne prest ds hne]

theorem takeDigits_append :
    ∀ s : List Char, (takeDigits s).1 ++ (takeDigits s).2 = s
  | [] => rfl
  | c :: cs => by
    rw [takeDigits]
    by_cases hc : c.isDigit
    · simp only [hc, if_true]
      simpa using takeDigits_append cs
    · simp [hc]

theorem takeDigits_digits :
    ∀ s : List Char, ∀ c ∈ (takeDigits s).1, c.isDigit = true
  | [] => by simp [takeDigits]
  | c :: cs => by
    rw [takeDigits]
    by_cases hc : c.isDigit
    · simp only [hc, if_true]
      intro x hx
      rcases List.mem_cons.mp hx with rfl | hx2
      · exact hc
      · exact takeDigits_digits cs x (by simpa using hx2)
    · simp [hc]

theorem takeDigits_rest_head :
    ∀ s : List Char, ∀ d ds, (takeDigits s).2 = d :: ds → ¬ d.isDigit = true
  | [] => by simp [takeDigits]
  | c :: cs => by
    rw [takeDigits]
    by_cases hc : c.isDigit
    · simp only [hc, if_true]
      intro d ds h
      exact takeDigits_rest_head cs d ds (by simpa using h)
    · simp only [hc, if_false]
      intro d ds h
      cases h
      simpa using hc

theorem takeDigits_fst_ne (c : Char) (cs : List Char)
    (h : c.isDigit = true) : (takeDigits (c :: cs)).1 ≠ [] := by
  rw [takeDigits]
  simp [h]

theorem takeDigits_rest_len :
    ∀ s : List Char, (takeDigits s).2.length ≤ s.length
  | [] => by simp [takeDigits]
  | c :: cs => by
    rw [takeDigits]
    by_cases hc : c.isDigit
    · simp only [hc, if_true]
      have := takeDigits_rest_len cs
      simpa using Nat.le_succ_of_le this
    · simp [hc]

theorem safeB_tail {m : Char} {S : List Char} {c : Char} {cs : List Char}
    (h : safeB m S (c :: cs) = true) : safeB m S cs = true := by
  cases cs with
  | nil => rfl
  | cons d ds =>
    rw [safeB] at h
    exact (Bool.and_eq_true_iff.mp h).2

theorem safeB_suffix {m : Char} {S : List Char} :
    ∀ (a b : List Char), safeB m S (a ++ b) = true → safeB m S b = true
  | [], _, h => h
  | _ :: cs, b, h => safeB_suffix cs b (safeB_tail h)

theorem safeB_append_left {m : Char} {S : List Char} :
    ∀ (a b : List Char), m ∉ a → safeB m S b = true →
      safeB m S (a ++ b) = true
  | [], b, _, hb => hb
  | x :: xs, b, hma, hb => by
    have hx : x ≠ m := fun hxm => hma (hxm ▸ List.mem_cons_self _ _)
    have hxs : m ∉ xs := fun hmem => hma (List.mem_cons_of_mem _ hmem)
    have hrec := safeB_append_left xs b hxs hb
    rw [List.cons_append]
    cases hxb : xs ++ b with
    | nil => simp [safeB, hx]
    | cons d ds =>
      rw [hxb] at hrec
      rw [safeB, if_neg hx, hrec]
      simp

theorem safeB_nil_not_mem {m : Char} :
    ∀ s : List Char, safeB m [] s = true → m ∉ s
  | [], _ => by simp
  | [c], h => by
    rw [safeB] at h
    simp only [List.mem_singleton]
    intro hc
    rw [hc] at h
    simp at h
  | c :: d :: cs, h => by
    rw [safeB, Bool.and_eq_true_iff] at h
    have hrec := safeB_nil_not_mem (d :: cs) h.2
    have hc : c ≠ m := by
      intro hc
      rw [if_pos hc] at h
      exact absurd h.1 (by simp [List.contains])
    simp only [List.mem_cons] at hrec ⊢
    rintro (rfl | hmem)
    · exact hc rfl
    · exact hrec hmem

/-! ## Colour-character lemmas -/

theorem selectColor_mem_or_white (sel : ℤ) :
    selectColor sel ∈ palette6 ∨ selectColor sel = Color.mk 255 255 255 := by
  unfold selectColor
  split_ifs <;> simp [palette6]

theorem color_format_chars (col : Color)
    (hcol : col ∈ palette6 ∨ col = Color.mk 255 255 255) (s : String) :
    ∀ c ∈ (col.format s).data, c ∈ ansiChars ∨ c ∈ s.data := by
  intro c hc
  rw [Color.format, String.data_append, String.data_append] at hc
  rcases List.mem_append.mp hc with h2 | h2
  · rcases List.mem_append.mp h2 with h3 | h3
    · left
      have hpal : ∀ d ∈ palette6, ∀ x ∈ d.toAnsi.data, x ∈ ansiChars := by
        decide
      rcases hcol with hmem | rfl
      · exact hpal col hmem c h3
      · revert h3
        have : ∀ x ∈ (Color.toAnsi (Color.mk 255 255 255)).data,
            x ∈ ansiChars := by decide
        exact this c
    · exact Or.inr h3
  · left
    have : ∀ x ∈ Color.reset.data, x ∈ ansiChars := by decide
    exact this c h2

theorem generateColor_chars (r : ℚ) (s : String) :
    ∀ c ∈ (generateColor r s).data, c ∈ ansiChars ∨ c ∈ s.data :=
  color_format_chars _ (selectColor_mem_or_white _) s

theorem lightRepl_chars (glyph : List Char) (draws : Nat → ℚ) (k : Nat) :
    ∀ c ∈ lightRepl glyph draws k, c ∈ ansiChars ∨ c ∈ glyph := by
  intro c hc
  exact generateColor_chars (draws k) (String.mk glyph) c hc

/-! ## Light-scanner lemmas -/

theorem lightScanF_nil (glyph : List Char) (draws : Nat → ℚ) :
    ∀ fuel k, lightScanF glyph draws fuel k [] = []
  | 0, _ => rfl
  | _ + 1, _ => rfl

theorem dropGlyphOpt_cases (glyph : List Char) :
    ∀ rest1 : List Char, dropGlyphOpt glyph rest1 = rest1 ∨
      ∃ d, rest1 = d :: dropGlyphOpt glyph rest1
  | [] => Or.inl rfl
  | d :: ds => by
    rw [dropGlyphOpt]
    by_cases h : glyph.getLast? = some d
    · rw [if_pos h]
      exact Or.inr ⟨d, rfl⟩
    · rw [if_neg h]
      exact Or.inl rfl

theorem lightScanF_digit (glyph : List Char) (draws : Nat → ℚ)
    (fuel k : Nat) (c : Char) (cs : List Char) (hd : c.isDigit = true) :
    lightScanF glyph draws (fuel + 1) k (c :: cs) =
      match dropPrefixL glyph.dropLast (takeDigits (c :: cs)).2 with
      | some rest1 =>
        (generateColor (draws k) (String.mk glyph)).data ++
          lightScanF glyph draws fuel (k + 1) (dropGlyphOpt glyph rest1)
      | none => (takeDigits (c :: cs)).1 ++
          lightScanF glyph draws fuel k (takeDigits (c :: cs)).2 := by
  rw [lightScanF, if_pos hd]

theorem lightScanF_not_digit (glyph : List Char) (draws : Nat → ℚ)
    (fuel k : Nat) (c : Char) (cs : List Char) (hd : ¬ c.isDigit = true) :
    lightScanF glyph draws (fuel + 1) k (c :: cs) =
      c :: lightScanF glyph draws fuel k cs := by
  rw [lightScanF, if_neg hd]

theorem lightScanF_mem (glyph : List Char) (draws : Nat → ℚ) :
    ∀ (fuel k : Nat) (s : List Char) (c : Char),
      c ∈ lightScanF glyph draws fuel k s →
      c ∈ s ∨ c ∈ ansiChars ∨ c ∈ glyph
  | 0, _, s, c, h => Or.inl h
  | _ + 1, _, [], c, h => by cases h
  | fuel + 1, k, c0 :: cs, c, h => by
    by_cases hd : c0.isDigit
    · rw [lightScanF_digit glyph draws fuel k c0 cs hd] at h
      rcases hdp : dropPrefixL glyph.dropLast (takeDigits (c0 :: cs)).2 with
        _ | rest1 <;> rw [hdp] at h
      · rcases List.mem_append.mp h with h2 | h2
        · refine Or.inl ?_
          rw [← takeDigits_append (c0 :: cs)]
          exact List.mem_append_left _ h2
        · rcases lightScanF_mem glyph draws fuel k _ c h2 with h3 | h3
          · refine Or.inl ?_
            rw [← takeDigits_append (c0 :: cs)]
            exact List.mem_append_right _ h3
          · exact Or.inr h3
      · rcases List.mem_append.mp h with h2 | h2
        · exact Or.inr (lightRepl_chars glyph draws k c h2)
        · rcases lightScanF_mem glyph draws fuel (k + 1) _ c h2 with h3 | h3
          · refine Or.inl ?_
            have hs : (c0 :: cs) = (takeDigits (c0 :: cs)).1 ++
                (glyph.dropLast ++ rest1) := by
              rw [← dropPrefixL_eq _ _ _ hdp, takeDigits_append]
            have hmem1 : c ∈ rest1 := by
              rcases dropGlyphOpt_cases glyph rest1 with heq | ⟨d, heq⟩
              · rwa [heq] at h3
              · rw [heq]
                exact List.mem_cons_of_mem _ h3
            rw [hs]
            exact List.mem_append_right _ (List.mem_append_right _ hmem1)
          · exact Or.inr h3
    · rw [lightScanF_not_digit glyph draws fuel k c0 cs hd] at h
      rcases List.mem_cons.mp h with rfl | h2
      · exact Or.inl (List.mem_cons_self _ _)
      · rcases lightScanF_mem glyph draws fuel k cs c h2 with h3 | h3
        · exact Or.inl (List.mem_cons_of_mem _ h3)
        · exact Or.inr h3

theorem lightScanF_cons_not_digit (glyph : List Char) (draws : Nat → ℚ)
    (fuel k : Nat) (d : Char) (ds : List Char) (hd : ¬ d.isDigit = true) :
    ∃ t, lightScanF glyph draws fuel k (d :: ds) = d :: t := by
  cases fuel with
  | zero => exact ⟨ds, rfl⟩
  | succ fuel =>
    refine ⟨lightScanF glyph draws fuel k ds, ?_⟩
    rw [lightScanF, if_neg hd]

/-! ## Soundness of the light scanner against the claim's description -/

theorem LightsSpec.ban_strengthen {glyph : List Char} {repl : Nat → List Char}
    {k : Nat} {s out : List Char}
    (h : LightsSpec glyph repl false k s out)
    (hhead : ∀ d ds, s = d :: ds → ¬ d.isDigit = true)
    (hpre : ¬ glyph.isPrefixOf s = true) :
    LightsSpec glyph repl true k s out := by
  cases h with
  | nil => exact .nil _ _
  | plain _ _ c cs out hc hban hrec =>
    exact .plain true _ c cs out hc (fun _ => hpre) hrec
  | runGlyph _ run rest out hne hdig hrec =>
    rcases run with _ | ⟨r0, rtl⟩
    · exact absurd rfl hne
    · exact absurd (hdig r0 (List.mem_cons_self _ _)) (hhead r0 _ rfl)
  | runNoGlyph _ run rest out hne hdig hrec =>
    rcases run with _ | ⟨r0, rtl⟩
    · exact absurd rfl hne
    · exact absurd (hdig r0 (List.mem_cons_self _ _)) (hhead r0 _ rfl)

theorem lightScanF_sound (g : Char) (draws : Nat → ℚ)
    (_hg : ¬ g.isDigit = true) :
    ∀ (fuel : Nat) (s : List Char) (k : Nat), s.length ≤ fuel →
      LightsSpec [g] (lightRepl [g] draws) false k s
        (lightScanF [g] draws fuel k s) := by
  intro fuel
  induction fuel with
  | zero =>
    intro s k hlen
    have : s = [] := List.length_eq_zero.mp (Nat.le_zero.mp hlen)
    subst this
    exact .nil _ _
  | succ fuel ih =>
    intro s k hlen
    rcases s with _ | ⟨c, cs⟩
    · exact .nil _ _
    by_cases hd : c.isDigit
    · have hp : (takeDigits (c :: cs)).1 ++ (takeDigits (c :: cs)).2 =
          c :: cs := takeDigits_append _
      have hne : (takeDigits (c :: cs)).1 ≠ [] := takeDigits_fst_ne c cs hd
      have hdig : ∀ x ∈ (takeDigits (c :: cs)).1, x.isDigit = true :=
        takeDigits_digits _
      have hlen1 : 1 ≤ (takeDigits (c :: cs)).1.length :=
        List.length_pos.mpr hne
      have hlen2 : (takeDigits (c :: cs)).1.length +
          (takeDigits (c :: cs)).2.length = cs.length + 1 := by
        have := congrArg List.length hp
        simpa using this
      have hscan : lightScanF [g] draws (fuel + 1) k (c :: cs) =
          lightRepl [g] draws k ++ lightScanF [g] draws fuel (k + 1)
            (dropGlyphOpt [g] (takeDigits (c :: cs)).2) := by
        rw [lightScanF, if_pos hd]
        rfl
      rw [hscan]
      have hmain : LightsSpec [g] (lightRepl [g] draws) false k (c :: cs)
          (lightRepl [g] draws k ++ lightScanF [g] draws fuel (k + 1)
            (dropGlyphOpt [g] (takeDigits (c :: cs)).2)) := by
        rcases hrest : (takeDigits (c :: cs)).2 with _ | ⟨d, ds⟩
        · rw [hrest] at hp
          rw [show dropGlyphOpt [g] ([] : List Char) = [] from rfl,
            lightScanF_nil]
          have h0 := @LightsSpec.runNoGlyph [g]
            (lightRepl [g] draws) k (takeDigits (c :: cs)).1 [] []
            hne hdig (.nil _ _)
          rwa [hp] at h0
        · have hdhead : ¬ d.isDigit = true :=
            takeDigits_rest_head (c :: cs) d ds hrest
          by_cases hdg : d = g
          · have hopt : dropGlyphOpt [g] (d :: ds) = ds := by
              rw [dropGlyphOpt, if_pos (by rw [hdg]; rfl)]
            rw [hopt]
            have hlen3 : ds.length ≤ fuel := by
              rw [hrest] at hlen2
              simp only [List.length_cons] at hlen2 hlen
              omega
            have hrec := ih ds (k + 1) hlen3
            have h0 := @LightsSpec.runGlyph [g]
              (lightRepl [g] draws) k (takeDigits (c :: cs)).1 ds
              (lightScanF [g] draws fuel (k + 1) ds) hne hdig hrec
            have hshape : (takeDigits (c :: cs)).1 ++ [g] ++ ds = c :: cs := by
              rw [List.append_assoc, List.singleton_append, ← hdg, ← hrest,
                hp]
            rwa [hshape] at h0
          · have hcond : ¬ (([g] : List Char).getLast? = some d) := by
              intro hcontra
              have hlast : ([g] : List Char).getLast? = some g := rfl
              rw [hlast] at hcontra
              cases hcontra
              exact hdg rfl
            have hopt : dropGlyphOpt [g] (d :: ds) = d :: ds := by
              rw [dropGlyphOpt, if_neg hcond]
            rw [hopt]
            have hlen3 : (takeDigits (c :: cs)).2.length ≤ fuel := by
              rw [hrest]
              rw [hrest] at hlen2
              simp only [List.length_cons] at hlen2 hlen ⊢
              omega
            have hrec := ih (takeDigits (c :: cs)).2 (k + 1) hlen3
            have hstr : LightsSpec [g] (lightRepl [g] draws) true (k + 1)
                (takeDigits (c :: cs)).2
                (lightScanF [g] draws fuel (k + 1)
                  (takeDigits (c :: cs)).2) := by
              refine hrec.ban_strengthen ?_ ?_
              · intro d2 ds2 heq
                rw [hrest] at heq
                cases heq
                exact hdhead
              · rw [hrest]
                simp only [List.isPrefixOf, Bool.and_eq_true, beq_iff_eq]
                intro hcontra
                exact hdg hcontra.1.symm
            rw [hrest] at hstr
            have h0 := @LightsSpec.runNoGlyph [g]
              (lightRepl [g] draws) k (takeDigits (c :: cs)).1
              (d :: ds) (lightScanF [g] draws fuel (k + 1) (d :: ds))
              hne hdig hstr
            rw [hrest] at hp
            rwa [hp] at h0
      exact hmain
    · rw [lightScanF_not_digit [g] draws fuel k c cs hd]
      exact .plain false k c cs _ hd (fun h => nomatch h)
        (ih cs k (by simpa using Nat.le_of_succ_le_succ hlen))

/-! ## Marker-safety through the passes -/

theorem safeB_cons_ne {m : Char} {S : List Char} {c : Char} {X : List Char}
    (hc : c ≠ m) (h : safeB m S X = true) : safeB m S (c :: X) = true := by
  cases X with
  | nil => simp [safeB, hc]
  | cons x xs =>
    rw [safeB, if_neg hc, h]
    simp

theorem safeB_m_cons {m : Char} {S : List Char} {cs : List Char}
    (h : safeB m S (m :: cs) = true) :
    ∃ d ds, cs = d :: ds ∧ S.contains d = true := by
  cases cs with
  | nil =>
    rw [safeB] at h
    simp at h
  | cons d ds =>
    rw [safeB, if_pos rfl, Bool.and_eq_true_iff] at h
    exact ⟨d, ds, rfl, h.1⟩

theorem contains_ne_of_contains_eq_false {S : List Char} {a b : Char}
    (ha : S.contains a = true) (hb : S.contains b = false) : a ≠ b := by
  intro h
  rw [h] at ha
  rw [ha] at hb
  cases hb

theorem safeB_replaceAllF_preserve (m : Char) (S : List Char)
    (p0 : Char) (prest rep : List Char)
    (hp0m : p0 ≠ m) (hmpat : m ∉ p0 :: prest)
    (hp0S : S.contains p0 = false) (hmrep : m ∉ rep) :
    ∀ (fuel : Nat) (s : List Char), safeB m S s = true →
      safeB m S (replaceAllF (p0 :: prest) rep fuel s) = true
  | 0, s, hs => hs
  | _ + 1, [], _ => rfl
  | fuel + 1, c :: cs, hs => by
    rw [replaceAllF]
    rcases hdp : dropPrefixL (p0 :: prest) (c :: cs) with _ | rest
    · by_cases hc : c = m
      · rw [hc] at hs ⊢
        obtain ⟨d, ds, hcs, hd⟩ := safeB_m_cons hs
        have hdp0 : d ≠ p0 := contains_ne_of_contains_eq_false hd hp0S
        obtain ⟨t, ht⟩ := replaceAllF_head p0 prest rep fuel d ds hdp0
        have hrec := safeB_replaceAllF_preserve m S p0 prest rep hp0m hmpat
          hp0S hmrep fuel cs (safeB_tail hs)
        rw [hcs, ht] at hrec ⊢
        rw [safeB, if_pos rfl, hd, hrec]
        simp
      · exact safeB_cons_ne hc
          (safeB_replaceAllF_preserve m S p0 prest rep hp0m hmpat hp0S hmrep
            fuel cs (safeB_tail hs))
    · have hseq := dropPrefixL_eq _ _ _ hdp
      have hrest : safeB m S rest = true := by
        rw [hseq] at hs
        exact safeB_suffix _ _ hs
      exact safeB_append_left rep _ hmrep
        (safeB_replaceAllF_preserve m S p0 prest rep hp0m hmpat hp0S hmrep
          fuel rest hrest)

theorem safeB_replaceAllF_elim (m v : Char) (S S2 rep : List Char)
    (hmv : v ≠ m) (hmS : S.contains m = false) (hmrep : m ∉ rep)
    (hS2 : ∀ d : Char, S2.contains d = true ↔
      (S.contains d = true ∧ d ≠ v)) :
    ∀ (fuel : Nat) (s : List Char), s.length ≤ fuel →
      safeB m S s = true →
      safeB m S2 (replaceAllF [m, v] rep fuel s) = true
  | 0, s, hlen, _ => by
    have : s = [] := List.length_eq_zero.mp (Nat.le_zero.mp hlen)
    subst this
    rfl
  | _ + 1, [], _, _ => rfl
  | fuel + 1, c :: cs, hlen, hs => by
    rw [replaceAllF]
    rcases hdp : dropPrefixL [m, v] (c :: cs) with _ | rest
    · by_cases hc : c = m
      · rw [hc] at hs hdp ⊢
        obtain ⟨d, ds, hcs, hd⟩ := safeB_m_cons hs
        have hdv : d ≠ v := by
          intro hdv
          rw [hcs, hdv] at hdp
          have : dropPrefixL [m, v] (m :: v :: ds) = some ds := by
            rw [dropPrefixL, if_pos rfl, dropPrefixL, if_pos rfl]
            rfl
          rw [this] at hdp
          cases hdp
        have hdm : d ≠ m := contains_ne_of_contains_eq_false hd hmS
        obtain ⟨t, ht⟩ := replaceAllF_head m [v] rep fuel d ds hdm
        have hlen2 : cs.length ≤ fuel := by
          simp only [List.length_cons] at hlen
          omega
        have hrec := safeB_replaceAllF_elim m v S S2 rep hmv hmS hmrep hS2
          fuel cs hlen2 (safeB_tail hs)
        rw [hcs, ht] at hrec ⊢
        rw [safeB, if_pos rfl, hrec]
        have : S2.contains d = true := (hS2 d).mpr ⟨hd, hdv⟩
        rw [this]
        simp
      · exact safeB_cons_ne hc
          (safeB_replaceAllF_elim m v S S2 rep hmv hmS hmrep hS2 fuel cs
            (by simp only [List.length_cons] at hlen; omega) (safeB_tail hs))
    · have hseq := dropPrefixL_eq _ _ _ hdp
      have hrest : safeB m S rest = true := by
        rw [hseq] at hs
        exact safeB_suffix _ _ hs
      have hlen2 : rest.length ≤ fuel := by
        have := congrArg List.length hseq
        simp only [List.length_cons, List.length_append] at this hlen
        omega
      exact safeB_append_left rep _ hmrep
        (safeB_replaceAllF_elim m v S S2 rep hmv hmS hmrep hS2 fuel rest
          hlen2 hrest)

theorem safeB_lightScanF (m : Char) (S glyph : List Char) (draws : Nat → ℚ)
    (hmd : ¬ m.isDigit = true)
    (hSd : ∀ d, S.contains d = true → ¬ d.isDigit = true)
    (hmansi : m ∉ ansiChars) (hmg : m ∉ glyph) :
    ∀ (fuel k : Nat) (s : List Char), safeB m S s = true →
      safeB m S (lightScanF glyph draws fuel k s) = true
  | 0, _, s, hs => hs
  | _ + 1, _, [], _ => rfl
  | fuel + 1, k, c :: cs, hs => by
    by_cases hd : c.isDigit
    · rw [lightScanF_digit glyph draws fuel k c cs hd]
      have hp : (takeDigits (c :: cs)).1 ++ (takeDigits (c :: cs)).2 =
          c :: cs := takeDigits_append _
      have hs2 : safeB m S (takeDigits (c :: cs)).2 = true := by
        rw [← hp] at hs
        exact safeB_suffix _ _ hs
      rcases hdp : dropPrefixL glyph.dropLast (takeDigits (c :: cs)).2 with
        _ | rest1
      · have hmp1 : m ∉ (takeDigits (c :: cs)).1 := by
          intro hmem
          exact hmd (takeDigits_digits _ m hmem)
        exact safeB_append_left _ _ hmp1
          (safeB_lightScanF m S glyph draws hmd hSd hmansi hmg fuel k
            _ hs2)
      · have hmblock : m ∉ (generateColor (draws k) (String.mk glyph)).data
            := by
          intro hmem
          rcases generateColor_chars (draws k) (String.mk glyph) m hmem with
            h2 | h2
          · exact hmansi h2
          · exact hmg h2
        have hrest1 : safeB m S rest1 = true := by
          rw [dropPrefixL_eq _ _ _ hdp] at hs2
          exact safeB_suffix _ _ hs2
        have hrest2 : safeB m S (dropGlyphOpt glyph rest1) = true := by
          rcases dropGlyphOpt_cases glyph rest1 with heq | ⟨d, heq⟩
          · rwa [heq]
          · rw [heq] at hrest1
            exact safeB_tail hrest1
        exact safeB_append_left _ _ hmblock
          (safeB_lightScanF m S glyph draws hmd hSd hmansi hmg fuel (k + 1)
            _ hrest2)
    · rw [lightScanF_not_digit glyph draws fuel k c cs hd]
      by_cases hc : c = m
      · rw [hc] at hs ⊢
        obtain ⟨d, ds, hcs, hdS⟩ := safeB_m_cons hs
        have hdd : ¬ d.isDigit = true := hSd d hdS
        obtain ⟨t, ht⟩ := lightScanF_cons_not_digit glyph draws fuel k d ds
          hdd
        have hrec := safeB_lightScanF m S glyph draws hmd hSd hmansi hmg
          fuel k cs (safeB_tail hs)
        rw [hcs, ht] at hrec ⊢
        rw [safeB, if_pos rfl, hdS, hrec]
        simp
      · exact safeB_cons_ne hc
          (safeB_lightScanF m S glyph draws hmd hSd hmansi hmg fuel k cs
            (safeB_tail hs))

/-! ## Claim C1 (option validation) -/

/-- C1, counterexample: a configuration whose `star` value is `null` has a
non-string resolved leaf, yet `mergeOptions` succeeds (JavaScript's
`typeof null === "object"` sends `null` into the vacuous sub-value check),
so no validation error is raised during option merging. -/
theorem c1_counterexample :
    mergeOptions [("star", JSValue.null)] =
      .ok (spreadMerge defaultOptions [("star", JSValue.null)])
    ∧ spreadMerge defaultOptions [("star", JSValue.null)] =
        [("star", JSValue.null), ("balls", JSValue.str "O"),
         ("stars", JSValue.str "*")]
    ∧ hasNonStringLeafB (spreadMerge defaultOptions [("star", JSValue.null)])
        = true :=
  ⟨rfl, rfl, rfl⟩

/-- C1, amended: provided no top-level merged value is `null`, option
merging raises the validation error exactly when some resolved leaf is not
a string, the error names an offending key path together with the `typeof`
it found, and a failed merge is the whole invocation's error (no output is
produced). -/
theorem c1_validation_iff (opts : List (String × JSValue))
    (hnn : ∀ p ∈ spreadMerge defaultOptions opts, p.2 ≠ JSValue.null) :
    ((∃ e, mergeOptions opts = .error e) ↔
      hasNonStringLeafB (spreadMerge defaultOptions opts) = true)
    ∧ (∀ e, mergeOptions opts = .error e →
        errorWitnessed e (spreadMerge defaultOptions opts)
        ∧ ∀ draws, ctree opts draws = .error e) := by
  constructor
  · rw [mergeOptions_eq]
    rcases h : validateAll (spreadMerge defaultOptions opts) with e2 | u
    · have : ¬ validateAll (spreadMerge defaultOptions opts) = .ok () := by
        rw [h]
        intro hcontra
        cases hcontra
      rw [validateAll_ok_iff _ hnn] at this
      simp only [Bool.not_eq_false] at this
      simp [this]
    · cases u
      have : hasNonStringLeafB (spreadMerge defaultOptions opts) = false :=
        (validateAll_ok_iff _ hnn).mp h
      simp [this]
  · intro e he
    have hv : validateAll (spreadMerge defaultOptions opts) = .error e := by
      rw [mergeOptions_eq] at he
      rcases h : validateAll (spreadMerge defaultOptions opts) with e2 | u
      · rw [h] at he
        cases he
        rfl
      · rw [h] at he
        cases he
    refine ⟨validateAll_error_witnessed _ _ hv, fun draws => ?_⟩
    unfold ctree
    rw [he]

/-- C1, witness for the amended theorem at a concrete configuration:
`{balls: 3}` (a number leaf) makes merging fail. -/
theorem c1_validation_iff_witness :
    (∃ e, mergeOptions [("balls", JSValue.num 3)] = .error e) ∧
      hasNonStringLeafB
        (spreadMerge defaultOptions [("balls", JSValue.num 3)]) = true :=
  ⟨(c1_validation_iff [("balls", JSValue.num 3)]
      (by
        intro p hp
        have hm : spreadMerge defaultOptions [("balls", JSValue.num 3)] =
            [("star", JSValue.obj [("TOP", JSValue.str "|"),
              ("TREE_STAR", JSValue.str "+"), ("LEFT", JSValue.str "-"),
              ("RIGHT", JSValue.str "-"), ("BOTTOM", JSValue.str "A")]),
             ("balls", JSValue.num 3), ("stars", JSValue.str "*")] := rfl
        rw [hm] at hp
        simp only [List.mem_cons, List.not_mem_nil, or_false] at hp
        rcases hp with rfl | rfl | rfl <;> exact fun h => nomatch h)).1.mpr
      rfl, rfl⟩

/-! ## Claim C3 (shallow merge) -/

/-- C3: option merging shallow-overlays the caller's top-level keys onto
the built-in defaults (`star`, `balls: "O"`, `stars: "*"`); in particular
a caller-supplied `star` value replaces the default `star` object whole,
with no per-field fallback, and a successful merge returns exactly the
overlay. -/
theorem c3_shallow_merge :
    (∀ opts k, List.lookup k (spreadMerge defaultOptions opts) =
        (List.lookup k opts).or (List.lookup k defaultOptions))
    ∧ (∀ opts v, List.lookup "star" opts = some v →
        List.lookup "star" (spreadMerge defaultOptions opts) = some v)
    ∧ (∀ opts m, mergeOptions opts = .ok m →
        m = spreadMerge defaultOptions opts)
    ∧ List.lookup "star" defaultOptions =
        some (.obj [("TOP", .str "|"), ("TREE_STAR", .str "+"),
          ("LEFT", .str "-"), ("RIGHT", .str "-"), ("BOTTOM", .str "A")])
    ∧ List.lookup "balls" defaultOptions = some (.str "O")
    ∧ List.lookup "stars" defaultOptions = some (.str "*") := by
  have hover : ∀ opts k, List.lookup k (spreadMerge defaultOptions opts) =
      (List.lookup k opts).or (List.lookup k defaultOptions) := by
    intro opts k
    rw [lookup_spreadMerge]
    rcases hd : List.lookup k defaultOptions with _ | v
    · simp
    · rcases ho : List.lookup k opts with _ | w <;> simp
  refine ⟨hover, fun opts v hv => ?_, fun opts m hm => ?_, rfl, rfl, rfl⟩
  · rw [hover, hv]
    rfl
  · rw [mergeOptions_eq] at hm
    rcases h : validateAll (spreadMerge defaultOptions opts) with e2 | u <;>
      rw [h] at hm
    · cases hm
    · cases hm
      rfl

/-- C3, witness: a partial caller `star` replaces the whole default
`star`. -/
theorem c3_shallow_merge_witness :
    List.lookup "star" (spreadMerge defaultOptions
        [("star", JSValue.obj [("BOTTOM", JSValue.str "Z")])]) =
      some (JSValue.obj [("BOTTOM", JSValue.str "Z")]) :=
  c3_shallow_merge.2.1 _ _ rfl

/-! ## Claim C9 (random colour selection) -/

/-- C9: for every legal `Math.random()` outcome the drawn selection is an
integer in `[0, 6)`, the selected colour is one of the six palette
colours, the defensive white default is never produced, and
`generateColor` formats its input with exactly that colour. -/
theorem c9_palette_reachable (r : ℚ) (s : String) (h0 : 0 ≤ r) (h1 : r < 1) :
    (0 ≤ getRandomInt r 6 ∧ getRandomInt r 6 < 6)
    ∧ selectColor (getRandomInt r 6) ∈ palette6
    ∧ selectColor (getRandomInt r 6) ≠ Color.mk 255 255 255
    ∧ generateColor r s = (selectColor (getRandomInt r 6)).format s := by
  obtain ⟨hl, hr⟩ := getRandomInt_bounds r h0 h1
  refine ⟨⟨hl, hr⟩, selectColor_mem_palette6 _ hl hr, ?_, rfl⟩
  have hmem := selectColor_mem_palette6 _ hl hr
  intro hw
  rw [hw] at hmem
  simp [palette6, Color.mk.injEq] at hmem

/-- C9, witness at the concrete draw 1/2 (selection 3, red). -/
theorem c9_palette_reachable_witness :
    (0 ≤ getRandomInt (1/2 : ℚ) 6 ∧ getRandomInt (1/2 : ℚ) 6 < 6)
    ∧ selectColor (getRandomInt (1/2 : ℚ) 6) ∈ palette6
    ∧ selectColor (getRandomInt (1/2 : ℚ) 6) ≠ Color.mk 255 255 255
    ∧ generateColor (1/2 : ℚ) "O" =
        (selectColor (getRandomInt (1/2 : ℚ) 6)).format "O" :=
  c9_palette_reachable (1/2 : ℚ) "O" (by norm_num) (by norm_num)

/-! ## Claim C6 (totality after merging) -/

/-- C6: the configuration `{balls: "("}` is all-text, so option merging
accepts it, yet the `balls` value is spliced unescaped into the regular
expression source, yielding the malformed pattern `(\d+)(?` whose
compilation throws before any output is produced — contradicting the
specification's promise that nothing after merging can fail. -/
theorem c6_merge_accepts_regex_breaker :
    mergeOptions [("balls", JSValue.str "(")] =
      .ok (spreadMerge defaultOptions [("balls", JSValue.str "(")])
    ∧ lightRegexSource "(" = "(\\d+)(?" :=
  ⟨rfl, rfl⟩

/-! ## Claim C2 (number of light positions), counterexample part -/

set_option maxRecDepth 100000 in
set_option maxHeartbeats 1000000 in
/-- C2, counterexample: with the default configuration the template after
substitution has sixteen digit-run light positions, not six. -/
theorem c2_counterexample :
    countLights "O" (postSubst defaultResolved) ≠ 6
    ∧ countLights "O" (postSubst defaultResolved) = 16 := by
  constructor
  · decide
  · decide

/-! ## Claim C4 (star.BOTTOM substitution) -/

set_option maxRecDepth 100000 in
set_option maxHeartbeats 4000000 in
/-- C4: the template never contains the token `BOTTOM`, so substituting
`star.BOTTOM = "Z"` leaves the below-star position as the raw template
text `yA` (which the yellow pass no longer colours, since no star value is
`"A"`), and no `Z` appears anywhere in the returned text: the `star.BOTTOM`
option does not substitute the below-star glyph. -/
theorem c4_bottom_noop :
    isInfixL "BOTTOM".data inputTemplate.data = false
    ∧ isInfixL "yA".data (ctreePipeline bottomZResolved zeroDraws) = true
    ∧ 'Z' ∉ ctreePipeline bottomZResolved zeroDraws := by
  refine ⟨by decide, by decide, by decide⟩

/-! ## Claim C5 (the light pass) -/

theorem LightsSpec_digit_head {glyph : List Char} {repl : Nat → List Char}
    {k : Nat} {out : List Char} {c : Char} {cs : List Char}
    (h : LightsSpec glyph repl false k (c :: cs) out)
    (hc : c.isDigit = true) : ∃ out2, out = repl k ++ out2 := by
  generalize hin : (c :: cs) = inp at h
  cases h with
  | nil => cases hin
  | plain _ _ c2 cs2 out2 hc2 hban hrec =>
    cases hin
    exact absurd hc hc2
  | runGlyph _ run rest out2 hne hdig hrec => exact ⟨out2, rfl⟩
  | runNoGlyph _ run rest out2 hne hdig hrec => exact ⟨out2, rfl⟩

/-- C5, counterexample: with the two-character ball glyph `"ab"`, the
regex `(\d+)ab?` requires a literal `a` after the digits, so the digit run
in `"10 x"` is not matched at all: the pass leaves the text unchanged,
while the claim's reading (every maximal digit run is replaced by a
wrapped glyph) forces the output to start with a colour escape. -/
theorem c5_counterexample :
    applyColorsToLights "ab" zeroDraws "10 x".data = "10 x".data
    ∧ ¬ LightsSpec "ab".data (lightRepl "ab".data zeroDraws) false 0
        "10 x".data "10 x".data := by
  refine ⟨rfl, ?_⟩
  intro h
  obtain ⟨out2, hout⟩ := LightsSpec_digit_head h (by decide)
  have h1 : ("10 x".data).head? = some '1' := rfl
  rw [hout] at h1
  have h2 : (lightRepl "ab".data zeroDraws 0 ++ out2).head? = some '\x1b' :=
    rfl
  rw [h1] at h2
  cases h2

/-- C5, amended: for a single-character, non-digit ball glyph (treated
literally by the regex engine), the light pass replaces every maximal run
of digits, optionally followed immediately by the glyph, with a single
instance of the glyph wrapped in the freshly and independently drawn
colour of the next random draw, and the pass runs strictly before the
category colorization (the pipeline is exactly category-colorization
composed with light-colorization).  For multi-character glyphs the regex
demands the glyph's leading characters after the digits, so unmatched
digit runs survive (see the counterexample). -/
theorem c5_light_pass (g : Char) (draws : Nat → ℚ) (s : List Char)
    (hg : ¬ g.isDigit = true) :
    LightsSpec [g] (lightRepl [g] draws) false 0 s
      (applyColorsToLights (String.mk [g]) draws s)
    ∧ ∀ r : Resolved, ctreePipeline r draws =
        applyColors r (applyColorsToLights r.balls draws (postSubst r)) := by
  constructor
  · exact lightScanF_sound g draws hg (lenAcc s 0) s 0
      (by rw [lenAcc_eq]; simp)
  · intro r
    rfl

/-- C5, witness at the default glyph `O` on a small concrete text. -/
theorem c5_light_pass_witness :
    LightsSpec ['O'] (lightRepl ['O'] zeroDraws) false 0 "3O x".data
      (applyColorsToLights (String.mk ['O']) zeroDraws "3O x".data)
    ∧ ∀ r : Resolved, ctreePipeline r zeroDraws =
        applyColors r (applyColorsToLights r.balls zeroDraws (postSubst r)) :=
  c5_light_pass 'O' zeroDraws "3O x".data (by decide)

/-! ## Claim C2 (light positions), amended part -/

set_option maxRecDepth 100000 in
set_option maxHeartbeats 1000000 in
/-- C2, amended: with the default configuration the substituted template
has exactly sixteen digit-run light positions; the light pass relates the
text to its output by replacing each of them with the ball glyph `O`
wrapped in the freshly drawn colour, and every draw yields one of the six
fixed palette colours. -/
theorem c2_sixteen_lights (draws : Nat → ℚ)
    (h : ∀ k, 0 ≤ draws k ∧ draws k < 1) :
    countLights "O" (postSubst defaultResolved) = 16
    ∧ LightsSpec ['O'] (lightRepl ['O'] draws) false 0
        (postSubst defaultResolved)
        (applyColorsToLights "O" draws (postSubst defaultResolved))
    ∧ ∀ k, ∃ c ∈ palette6, lightRepl ['O'] draws k =
        (c.format "O").data := by
  refine ⟨by decide, ?_, ?_⟩
  · exact lightScanF_sound 'O' draws (by decide)
      (lenAcc (postSubst defaultResolved) 0) (postSubst defaultResolved) 0
      (by rw [lenAcc_eq]; simp)
  · intro k
    obtain ⟨h0, h1⟩ := h k
    obtain ⟨hl, hr⟩ := getRandomInt_bounds (draws k) h0 h1
    exact ⟨selectColor (getRandomInt (draws k) 6),
      selectColor_mem_palette6 _ hl hr, rfl⟩

set_option maxRecDepth 100000 in
set_option maxHeartbeats 1000000 in
/-- C2, witness for the amended theorem at the all-zero draw stream. -/
theorem c2_sixteen_lights_witness :
    countLights "O" (postSubst defaultResolved) = 16
    ∧ LightsSpec ['O'] (lightRepl ['O'] zeroDraws) false 0
        (postSubst defaultResolved)
        (applyColorsToLights "O" zeroDraws (postSubst defaultResolved))
    ∧ ∀ k, ∃ c ∈ palette6, lightRepl ['O'] zeroDraws k =
        (c.format "O").data :=
  c2_sixteen_lights zeroDraws (fun _ => ⟨by rw [zeroDraws], by rw [zeroDraws]; norm_num⟩)

/-! ## Character non-membership through the category passes -/

theorem replaceAllL_not_mem (x : Char) (s rep : List Char) (p0 : Char)
    (ptl : List Char) (hxs : x ∉ s) (hxrep : x ∉ rep) :
    x ∉ replaceAllL s (p0 :: ptl) rep := by
  intro hmem
  have heq : replaceAllL s (p0 :: ptl) rep =
      replaceAllF (p0 :: ptl) rep (lenAcc s 0) s := rfl
  rw [heq] at hmem
  rcases replaceAllF_mem (p0 :: ptl) rep _ s x hmem with h | h
  · exact hxs h
  · exact hxrep h

theorem mem_of_isPrefixOf {x : Char} :
    ∀ {pat s : List Char}, x ∈ pat → pat.isPrefixOf s = true → x ∈ s
  | [], _, hx, _ => absurd hx (List.not_mem_nil x)
  | p :: ps, [], _, hpre => by cases hpre
  | p :: ps, c :: cs, hx, hpre => by
    rw [List.isPrefixOf, Bool.and_eq_true_iff] at hpre
    have hpc : p = c := by simpa using hpre.1
    rcases List.mem_cons.mp hx with rfl | hx2
    · rw [hpc]
      exact List.mem_cons_self _ _
    · exact List.mem_cons_of_mem _ (mem_of_isPrefixOf hx2 hpre.2)

theorem isInfixL_eq_false_of_not_mem (x : Char) :
    ∀ (pat s : List Char), x ∈ pat → x ∉ s → isInfixL pat s = false
  | pat, [], hx, _ => by
    cases pat with
    | nil => cases hx
    | cons a as => rfl
  | pat, c :: cs, hx, hs => by
    rw [isInfixL]
    have h1 : pat.isPrefixOf (c :: cs) = false := by
      by_contra hcontra
      rw [Bool.not_eq_false] at hcontra
      exact hs (mem_of_isPrefixOf hx hcontra)
    rw [h1, Bool.false_or]
    exact isInfixL_eq_false_of_not_mem x pat cs hx
      (fun h => hs (List.mem_cons_of_mem _ h))

theorem applyColorToChars_not_mem (x : Char) (col : Color) (pre : String)
    (hpre : pre.data ≠ [])
    (hcol : ∀ c ∈ col.toAnsi.data, c ∈ ansiChars)
    (hx : x ∉ ansiChars) :
    ∀ (chars : List String), (∀ ch ∈ chars, x ∉ ch.data) →
      ∀ s : List Char, x ∉ s → x ∉ applyColorToChars s col pre chars
  | [], _, s, hs => hs
  | ch :: rest, hchars, s, hs => by
    have hx1 : x ∉ replaceAllL s (pre.data ++ ch.data)
        ((col.format ch).data) := by
      rcases hd : pre.data with _ | ⟨p0, ps⟩
      · exact absurd hd hpre
      · have hrep : x ∉ (col.format ch).data := by
          intro hmem
          rw [Color.format, String.data_append, String.data_append] at hmem
          rcases List.mem_append.mp hmem with h2 | h2
          · rcases List.mem_append.mp h2 with h3 | h3
            · exact hx (hcol x h3)
            · exact hchars ch (List.mem_cons_self _ _) h3
          · refine hx ?_
            have hreset : ∀ c ∈ Color.reset.data, c ∈ ansiChars := by decide
            exact hreset x h2
        have := replaceAllL_not_mem x s ((col.format ch).data) p0
          (ps ++ ch.data) hs hrep
        exact this
    exact applyColorToChars_not_mem x col pre hpre hcol hx rest
      (fun ch2 h2 => hchars ch2 (List.mem_cons_of_mem _ h2)) _ hx1

theorem applyColors_not_mem (x : Char) (r : Resolved)
    (hx : x ∉ ansiChars)
    (hyellow : ∀ ch ∈ yellowChars r, x ∉ ch.data)
    (hgreen : ∀ ch ∈ (["/", "\\", "="] : List String), x ∉ ch.data)
    (hbrown : ∀ ch ∈ (["|", "_"] : List String), x ∉ ch.data)
    (s : List Char) (hs : x ∉ s) : x ∉ applyColors r s := by
  have h1 := applyColorToChars_not_mem x yellow "y" (by decide) (by decide)
    hx (yellowChars r) hyellow s hs
  have h2 := applyColorToChars_not_mem x green "g" (by decide) (by decide)
    hx _ hgreen _ h1
  have h3 := applyColorToChars_not_mem x brown "b" (by decide) (by decide)
    hx _ hbrown _ h2
  exact h3

/-! ## Claim C8 (balls = "X") -/

set_option maxRecDepth 100000 in
set_option maxHeartbeats 1000000 in
/-- C8: with `balls: "X"` (other options default), the light pass relates
the substituted template to its output by replacing each light position
with `X` wrapped in the freshly drawn colour, every draw produces one of
the palette colours, the literal sequence `BALL` does not occur anywhere
in the returned text, and the returned text is exactly the category pass
applied to the light pass. -/
theorem c8_balls_x (draws : Nat → ℚ) (h : ∀ k, 0 ≤ draws k ∧ draws k < 1) :
    LightsSpec ['X'] (lightRepl ['X'] draws) false 0
      (postSubst ballsXResolved)
      (applyColorsToLights "X" draws (postSubst ballsXResolved))
    ∧ (∀ k, ∃ c ∈ palette6, lightRepl ['X'] draws k = (c.format "X").data)
    ∧ isInfixL "BALL".data (ctreePipeline ballsXResolved draws) = false
    ∧ ctreePipeline ballsXResolved draws =
        applyColors ballsXResolved
          (applyColorsToLights "X" draws (postSubst ballsXResolved)) := by
  refine ⟨?_, ?_, ?_, rfl⟩
  · exact lightScanF_sound 'X' draws (by decide)
      (lenAcc (postSubst ballsXResolved) 0) (postSubst ballsXResolved) 0
      (by rw [lenAcc_eq]; simp)
  · intro k
    obtain ⟨h0, h1⟩ := h k
    obtain ⟨hl, hr⟩ := getRandomInt_bounds (draws k) h0 h1
    exact ⟨selectColor (getRandomInt (draws k) 6),
      selectColor_mem_palette6 _ hl hr, rfl⟩
  · have hpost : 'B' ∉ postSubst ballsXResolved := by decide
    have hlight : 'B' ∉ applyColorsToLights "X" draws
        (postSubst ballsXResolved) := by
      intro hmem
      rcases lightScanF_mem "X".data draws _ 0 _ 'B' hmem with h1 | h1 | h1
      · exact hpost h1
      · exact absurd h1 (by decide)
      · exact absurd h1 (by decide)
    have hfinal : 'B' ∉ ctreePipeline ballsXResolved draws :=
      applyColors_not_mem 'B' ballsXResolved (by decide) (by decide)
        (by decide) (by decide) _ hlight
    exact isInfixL_eq_false_of_not_mem 'B' _ _ (by decide) hfinal

set_option maxRecDepth 100000 in
set_option maxHeartbeats 1000000 in
/-- C8, witness at the all-zero draw stream. -/
theorem c8_balls_x_witness :
    LightsSpec ['X'] (lightRepl ['X'] zeroDraws) false 0
      (postSubst ballsXResolved)
      (applyColorsToLights "X" zeroDraws (postSubst ballsXResolved))
    ∧ (∀ k, ∃ c ∈ palette6, lightRepl ['X'] zeroDraws k =
        (c.format "X").data)
    ∧ isInfixL "BALL".data (ctreePipeline ballsXResolved zeroDraws) = false
    ∧ ctreePipeline ballsXResolved zeroDraws =
        applyColors ballsXResolved
          (applyColorsToLights "X" zeroDraws (postSubst ballsXResolved)) :=
  c8_balls_x zeroDraws
    (fun _ => ⟨by rw [zeroDraws], by rw [zeroDraws]; norm_num⟩)

/-! ## Claim C10 (stars decomposed into characters) -/

/-! ## Claim C7 (all marker-prefixed tokens consumed) -/

theorem contains_true_iff {S : List Char} {d : Char} :
    S.contains d = true ↔ d ∈ S := by
  induction S with
  | nil => simp [List.contains, List.elem]
  | cons a as ih =>
    rw [show (a :: as).contains d = (d == a || as.contains d) from rfl]
    rw [Bool.or_eq_true, ih]
    simp [List.mem_cons, beq_iff_eq]

theorem not_mem_of_contains_eq_false {S : List Char} {m : Char}
    (h : S.contains m = false) : m ∉ S := by
  intro hmem
  rw [← contains_true_iff] at hmem
  rw [hmem] at h
  cases h

theorem contains_eq_false_of_not_mem {S : List Char} {m : Char}
    (h : m ∉ S) : S.contains m = false := by
  cases hc : S.contains m
  · rfl
  · exact absurd (contains_true_iff.mp hc) h

theorem contains_filter_ne (S : List Char) (v : Char) (d : Char) :
    (S.filter (fun x => x != v)).contains d = true ↔
      (S.contains d = true ∧ d ≠ v) := by
  rw [contains_true_iff, contains_true_iff, List.mem_filter]
  simp [bne_iff_ne]

theorem safeB_replaceAllL_elim (m v : Char) (S S2 rep : List Char)
    (hmv : v ≠ m) (hmS : S.contains m = false) (hmrep : m ∉ rep)
    (hS2 : ∀ d, S2.contains d = true ↔ (S.contains d = true ∧ d ≠ v))
    (s : List Char) (hs : safeB m S s = true) :
    safeB m S2 (replaceAllL s [m, v] rep) = true := by
  have heq : replaceAllL s [m, v] rep =
      replaceAllF [m, v] rep (lenAcc s 0) s := rfl
  rw [heq]
  exact safeB_replaceAllF_elim m v S S2 rep hmv hmS hmrep hS2 _ s
    (by rw [lenAcc_eq]; simp) hs

theorem safeB_replaceAllL_preserve (m : Char) (S : List Char) (p0 : Char)
    (prest rep : List Char) (hp0m : p0 ≠ m) (hmpat : m ∉ p0 :: prest)
    (hp0S : S.contains p0 = false) (hmrep : m ∉ rep)
    (s : List Char) (hs : safeB m S s = true) :
    safeB m S (replaceAllL s (p0 :: prest) rep) = true := by
  have heq : replaceAllL s (p0 :: prest) rep =
      replaceAllF (p0 :: prest) rep (lenAcc s 0) s := rfl
  rw [heq]
  exact safeB_replaceAllF_preserve m S p0 prest rep hp0m hmpat hp0S hmrep
    _ s hs

theorem format_not_mem (m : Char) (col : Color) (ch : String)
    (hcol : ∀ c ∈ col.toAnsi.data, c ∈ ansiChars)
    (hmansi : m ∉ ansiChars) (hmch : m ∉ ch.data) :
    m ∉ (col.format ch).data := by
  intro hmem
  rw [Color.format, String.data_append, String.data_append] at hmem
  rcases List.mem_append.mp hmem with h2 | h2
  · rcases List.mem_append.mp h2 with h3 | h3
    · exact hmansi (hcol m h3)
    · exact hmch h3
  · refine hmansi ?_
    have hreset : ∀ c ∈ Color.reset.data, c ∈ ansiChars := by decide
    exact hreset m h2

theorem safeB_applyColorToChars_preserve (m : Char) (S : List Char)
    (col : Color) (pre : String) (p0 : Char) (hpre : pre.data = [p0])
    (hcol : ∀ c ∈ col.toAnsi.data, c ∈ ansiChars)
    (hp0m : p0 ≠ m) (hmansi : m ∉ ansiChars)
    (hp0S : S.contains p0 = false) :
    ∀ (chars : List String), (∀ ch ∈ chars, m ∉ ch.data) →
      ∀ s : List Char, safeB m S s = true →
        safeB m S (applyColorToChars s col pre chars) = true
  | [], _, _, hs => hs
  | ch :: rest, hch, s, hs => by
    have hmch : m ∉ ch.data := hch ch (List.mem_cons_self _ _)
    have hmrep : m ∉ (col.format ch).data :=
      format_not_mem m col ch hcol hmansi hmch
    have hmpat : m ∉ (p0 :: ch.data) := by
      intro hmem
      rcases List.mem_cons.mp hmem with rfl | h2
      · exact hp0m rfl
      · exact hmch h2
    have hstep : safeB m S (replaceAllL s (pre.data ++ ch.data)
        ((col.format ch).data)) = true := by
      rw [hpre]
      exact safeB_replaceAllL_preserve m S p0 ch.data _ hp0m hmpat hp0S
        hmrep s hs
    exact safeB_applyColorToChars_preserve m S col pre p0 hpre hcol hp0m
      hmansi hp0S rest (fun ch2 h2 => hch ch2 (List.mem_cons_of_mem _ h2))
      _ hstep

theorem safeB_applyColorToChars_elim (m : Char) (col : Color) (pre : String)
    (hpre : pre.data = [m])
    (hcol : ∀ c ∈ col.toAnsi.data, c ∈ ansiChars)
    (hmansi : m ∉ ansiChars) :
    ∀ (chars : List String) (S : List Char),
      (∀ ch ∈ chars, ∃ v, ch.data = [v] ∧ v ≠ m) →
      S.contains m = false →
      ∀ s : List Char, safeB m S s = true →
        safeB m (filterChain S chars) (applyColorToChars s col pre chars)
          = true
  | [], S, _, _, _, hs => hs
  | ch :: rest, S, hch, hmS, s, hs => by
    obtain ⟨v, hv, hvm⟩ := hch ch (List.mem_cons_self _ _)
    have hmrep : m ∉ (col.format ch).data := by
      refine format_not_mem m col ch hcol hmansi ?_
      rw [hv]
      simp only [List.mem_singleton]
      intro hcontra
      exact hvm (hcontra ▸ rfl)
    have hstep : safeB m (S.filter (fun x => x != v))
        (replaceAllL s (pre.data ++ ch.data) ((col.format ch).data))
          = true := by
      rw [hpre, hv]
      exact safeB_replaceAllL_elim m v S _ _ hvm hmS hmrep
        (contains_filter_ne S v) s hs
    have hmS2 : (S.filter (fun x => x != v)).contains m = false := by
      refine contains_eq_false_of_not_mem ?_
      intro hmem
      exact not_mem_of_contains_eq_false hmS (List.mem_filter.mp hmem).1
    have hrec := safeB_applyColorToChars_elim m col pre hpre hcol hmansi
      rest (S.filter (fun x => x != v))
      (fun ch2 h2 => hch ch2 (List.mem_cons_of_mem _ h2)) hmS2 _ hstep
    have hfc : filterChain S (ch :: rest) =
        filterChain (S.filter (fun x => x != v)) rest := by
      rw [filterChain, hv]
    rw [hfc]
    exact hrec

set_option maxRecDepth 100000 in
set_option maxHeartbeats 4000000 in
/-- C7, counterexample: an all-text configuration whose `star.TOP` is the
escape character and whose `star.LEFT` is the marker letter `y` makes the
yellow pass itself re-introduce the sequence `y␛` (inside the wrapped `y`
glyph) after the `␛` glyph's own pass has already run, so the returned
text still contains the marker `y` followed by the resolved category glyph
`␛` — an unconsumed marker-prefixed sequence. -/
theorem c7_counterexample :
    isInfixL ('y' :: "\x1b".data)
      (ctreePipeline escapeResolved zeroDraws) = true
    ∧ "\x1b" ∈ yellowChars escapeResolved := by
  refine ⟨by decide, by decide⟩

set_option maxRecDepth 100000 in
set_option maxHeartbeats 4000000 in
/-- C7, amended: with the default configuration, for every draw stream the
returned text contains no remaining marker-prefixed category sequence: no
occurrence of `y` followed by a resolved yellow glyph, of `g` followed by
a structural glyph, or of `b` followed by a trunk glyph (indeed the
letters `y`, `g`, `b` are consumed entirely). -/
theorem c7_markers_consumed (draws : Nat → ℚ) :
    (∀ ch ∈ yellowChars defaultResolved,
      isInfixL ('y' :: ch.data) (ctreePipeline defaultResolved draws)
        = false)
    ∧ (∀ ch ∈ (["/", "\\", "="] : List String),
      isInfixL ('g' :: ch.data) (ctreePipeline defaultResolved draws)
        = false)
    ∧ (∀ ch ∈ (["|", "_"] : List String),
      isInfixL ('b' :: ch.data) (ctreePipeline defaultResolved draws)
        = false) := by
  have hpY : safeB 'y' ['|', '-', 'A', '*'] (postSubst defaultResolved)
      = true := by decide
  have hpG : safeB 'g' ['/', '\\', '='] (postSubst defaultResolved)
      = true := by decide
  have hpB : safeB 'b' ['|', '_'] (postSubst defaultResolved) = true := by
    decide
  have hSdY : ∀ d : Char, (['|', '-', 'A', '*'] : List Char).contains d
      = true → ¬ d.isDigit = true := by
    intro d hd
    have hm := contains_true_iff.mp hd
    fin_cases hm <;> decide
  have hSdG : ∀ d : Char, (['/', '\\', '='] : List Char).contains d
      = true → ¬ d.isDigit = true := by
    intro d hd
    have hm := contains_true_iff.mp hd
    fin_cases hm <;> decide
  have hSdB : ∀ d : Char, (['|', '_'] : List Char).contains d = true →
      ¬ d.isDigit = true := by
    intro d hd
    have hm := contains_true_iff.mp hd
    fin_cases hm <;> decide
  have hlY : safeB 'y' ['|', '-', 'A', '*']
      (applyColorsToLights "O" draws (postSubst defaultResolved)) = true :=
    safeB_lightScanF 'y' _ "O".data draws (by decide) hSdY (by decide)
      (by decide) _ 0 _ hpY
  have hlG : safeB 'g' ['/', '\\', '=']
      (applyColorsToLights "O" draws (postSubst defaultResolved)) = true :=
    safeB_lightScanF 'g' _ "O".data draws (by decide) hSdG (by decide)
      (by decide) _ 0 _ hpG
  have hlB : safeB 'b' ['|', '_']
      (applyColorsToLights "O" draws (postSubst defaultResolved)) = true :=
    safeB_lightScanF 'b' _ "O".data draws (by decide) hSdB (by decide)
      (by decide) _ 0 _ hpB
  have hsingleY : ∀ ch ∈ yellowChars defaultResolved,
      ∃ v, ch.data = [v] ∧ v ≠ 'y' := by
    have hyc : yellowChars defaultResolved =
        ["|", "+", "-", "-", "A", "*"] := rfl
    rw [hyc]
    intro ch hch
    fin_cases hch
    · exact ⟨'|', rfl, by decide⟩
    · exact ⟨'+', rfl, by decide⟩
    · exact ⟨'-', rfl, by decide⟩
    · exact ⟨'-', rfl, by decide⟩
    · exact ⟨'A', rfl, by decide⟩
    · exact ⟨'*', rfl, by decide⟩
  have haY := safeB_applyColorToChars_elim 'y' yellow "y" rfl (by decide)
    (by decide) (yellowChars defaultResolved) ['|', '-', 'A', '*']
    hsingleY (by decide) _ hlY
  have hfcY : filterChain ['|', '-', 'A', '*'] (yellowChars defaultResolved)
      = [] := by decide
  rw [hfcY] at haY
  have haYm := safeB_nil_not_mem _ haY
  have haG := safeB_applyColorToChars_preserve 'g' ['/', '\\', '='] yellow
    "y" 'y' rfl (by decide) (by decide) (by decide) (by decide)
    (yellowChars defaultResolved) (by decide) _ hlG
  have haB := safeB_applyColorToChars_preserve 'b' ['|', '_'] yellow
    "y" 'y' rfl (by decide) (by decide) (by decide) (by decide)
    (yellowChars defaultResolved) (by decide) _ hlB
  have hbYm := applyColorToChars_not_mem 'y' green "g" (by decide)
    (by decide) (by decide) ["/", "\\", "="] (by decide) _ haYm
  have hsingleG : ∀ ch ∈ (["/", "\\", "="] : List String),
      ∃ v, ch.data = [v] ∧ v ≠ 'g' := by
    intro ch hch
    fin_cases hch
    · exact ⟨'/', rfl, by decide⟩
    · exact ⟨'\\', rfl, by decide⟩
    · exact ⟨'=', rfl, by decide⟩
  have hbG := safeB_applyColorToChars_elim 'g' green "g" rfl (by decide)
    (by decide) ["/", "\\", "="] ['/', '\\', '='] hsingleG (by decide)
    _ haG
  have hfcG : filterChain ['/', '\\', '='] ["/", "\\", "="] = [] := by
    decide
  rw [hfcG] at hbG
  have hbGm := safeB_nil_not_mem _ hbG
  have hbB := safeB_applyColorToChars_preserve 'b' ['|', '_'] green
    "g" 'g' rfl (by decide) (by decide) (by decide) (by decide)
    ["/", "\\", "="] (by decide) _ haB
  have hcYm := applyColorToChars_not_mem 'y' brown "b" (by decide)
    (by decide) (by decide) ["|", "_"] (by decide) _ hbYm
  have hcGm := applyColorToChars_not_mem 'g' brown "b" (by decide)
    (by decide) (by decide) ["|", "_"] (by decide) _ hbGm
  have hsingleB : ∀ ch ∈ (["|", "_"] : List String),
      ∃ v, ch.data = [v] ∧ v ≠ 'b' := by
    intro ch hch
    fin_cases hch
    · exact ⟨'|', rfl, by decide⟩
    · exact ⟨'_', rfl, by decide⟩
  have hcB := safeB_applyColorToChars_elim 'b' brown "b" rfl (by decide)
    (by decide) ["|", "_"] ['|', '_'] hsingleB (by decide) _ hbB
  have hfcB : filterChain ['|', '_'] ["|", "_"] = [] := by decide
  rw [hfcB] at hcB
  have hcBm := safeB_nil_not_mem _ hcB
  refine ⟨fun ch hch => ?_, fun ch hch => ?_, fun ch hch => ?_⟩
  · exact isInfixL_eq_false_of_not_mem 'y' _ _ (List.mem_cons_self _ _)
      hcYm
  · exact isInfixL_eq_false_of_not_mem 'g' _ _ (List.mem_cons_self _ _)
      hcGm
  · exact isInfixL_eq_false_of_not_mem 'b' _ _ (List.mem_cons_self _ _)
      hcBm

/-- C7, witness for the amended theorem: the default `star.TOP` glyph is
never left marker-prefixed in the output. -/
theorem c7_markers_consumed_witness :
    isInfixL ('y' :: "|".data)
      (ctreePipeline defaultResolved zeroDraws) = false :=
  (c7_markers_consumed zeroDraws).1 "|" (by decide)

/-- C10: the yellow pass receives the `stars` option decomposed into its
individual characters after the whole star values (`Object.values` of a
string yields its characters); behaviourally, with `stars: "ab"` the text
`yayb yab` has `ya` and `yb` wrapped character by character, and the final
`yab` is consumed as `ya` followed by a bare `b` — never as a
whole-`"ab"` unit. -/
theorem c10_stars_by_char :
    yellowChars starsABResolved = ["|", "+", "-", "-", "A", "a", "b"]
    ∧ applyColors starsABResolved "yayb yab".data =
        (yellow.format "a").data ++ (yellow.format "b").data ++ " ".data ++
          (yellow.format "a").data ++ "b".data := by
  refine ⟨rfl, by decide⟩

end Ctree
